import Mathlib

set_option maxHeartbeats 1000000

/-!
Verification of the drawbridge repository-service core.

The development shallowly embeds the core of the drawbridge service:
the `Namespace` parser and request dispatcher of `crates/repo/src/lib.rs`,
and the streaming multi-algorithm digest engine of
`crates/type/src/digest/{algorithms,reader}.rs`.  Rust strings are
modelled as lists of characters, Rust iterator/`Vec` manipulation as list
operations, and fallible operations return `Except`.
-/

deriving instance DecidableEq for Except

namespace Drawbridge

/-- Rust `str` values are modelled as lists of characters. -/

abbrev Str := List Char

/-- Conversion from a Lean string literal, used to write concrete inputs. -/

def strL (s : String) : Str := s.data

/-- Prepends a character to the first field of a non-empty field list. -/

def consHead (c : Char) : List Str → List Str
  | [] => [[c]]
  | t :: ts => (c :: t) :: ts

/-- Embeds Rust `str::split(sep)` for a single-character separator: the list
of (possibly empty) fields between occurrences of `sep`.  Rust's `split`
yields one empty field on the empty string, a leading empty field for a
leading separator, and a trailing empty field for a trailing separator. -/

def splitOnChar (sep : Char) : Str → List Str
  | [] => [[]]
  | c :: cs =>
    if c = sep then [] :: splitOnChar sep cs else consHead c (splitOnChar sep cs)

/-- Joins fields with a single-character separator; left inverse of
`splitOnChar`.  Mirrors how the original string relates to its fields. -/

def joinSep (sep : Char) : List Str → Str
  | [] => []
  | [t] => t
  | t :: u :: ts => t ++ sep :: joinSep sep (u :: ts)

/-! ## Namespace parsing (`crates/repo/src/lib.rs`, `impl FromStr for Namespace`) -/

/-- Embeds the character class of the Rust `valid` helper:
`matches!(c, '0'..='9' | 'a'..='z' | 'A'..='Z' | '-')`. -/

def validChar (c : Char) : Bool :=
  ('0' ≤ c && c ≤ '9') || ('a' ≤ c && c ≤ 'z') || ('A' ≤ c && c ≤ 'Z') || c = '-'

/-- Embeds Rust `valid`: the token is non-empty and a search for a character
outside the allowed class finds none. -/

def valid (part : Str) : Bool :=
  !part.isEmpty && part.all validChar

/-- Embeds the Rust `Namespace` struct: owner, ordered group list, name. -/

structure Namespace where
  owner : Str
  groups : List Str
  name : Str
deriving DecidableEq, Repr

/-- Error message of the missing-owner branch. -/

def ownerErr : String := "Repository owner must be specified"

/-- Error message when only one `/`-separated segment is present. -/

def nameErr : String := "Repository name must be specified"

/-- Error message when some token is empty or has a disallowed character. -/

def invalidErr : String := "Invalid namespace"

/-- Embeds `Namespace::from_str`: split on `/`; the first field is the owner
(`next()`), the last of the remaining fields is the name (`Vec::pop`), the
fields between are the groups; then validate every token. -/

def Namespace.fromStr (s : Str) : Except String Namespace :=
  match splitOnChar '/' s with
  | [] => .error ownerErr
  | owner :: rest =>
    match rest.getLast? with
    | none => .error nameErr
    | some name =>
      if !valid owner || !valid name || !rest.dropLast.all valid then
        .error invalidErr
      else
        .ok ⟨owner, rest.dropLast, name⟩

/-! ## Request dispatch (`crates/repo/src/lib.rs`, `app()`) -/

/-- Embeds Rust `str::split_once` for the two-character pattern `ab`:
splits at the first occurrence, the pattern removed. -/

def splitOncePair (a b : Char) : Str → Option (Str × Str)
  | [] => none
  | [_] => none
  | c :: d :: cs =>
    if c = a && d = b then some ([], cs)
    else (splitOncePair a b (d :: cs)).map fun p => (c :: p.1, p.2)

/-- Embeds Rust `str::split_once` for a single-character pattern. -/

def splitOnceChar (sep : Char) : Str → Option (Str × Str)
  | [] => none
  | c :: cs =>
    if c = sep then some ([], cs)
    else (splitOnceChar sep cs).map fun p => (c :: p.1, p.2)

/-- Whether the two-character pattern `ab` occurs as a substring. -/

def containsPair (a b : Char) : Str → Bool
  | [] => false
  | [_] => false
  | c :: d :: cs => (c = a && d = b) || containsPair a b (d :: cs)

/-- Routing components recognised by the dispatcher. -/

inductive Component
  | tree
  | tag
deriving DecidableEq, Repr

/-- Observable outcome of the routing stage of the `app()` fallback handler:
the `expect` on a path without a leading slash, the two not-found rejections,
the bad-request rejection carrying the namespace parse error, or a forward to
a sub-service with the rewritten path and parsed namespace. -/

inductive RouteResult
  | invalidUri
  | notFound
  | badRequest (reason : String)
  | forward (comp : Component) (rewritten : Str) (ns : Namespace)
deriving DecidableEq, Repr

/-- Tests whether an outcome is the bad-request rejection. -/

def RouteResult.isBadRequest : RouteResult → Bool
  | .badRequest _ => true
  | _ => false

/-- Embeds the `match comp` at the end of the handler: the path is rewritten
to `/_` followed by the remainder, and only `tree` and `tag` are routed. -/

def routeComp (comp rest2 : Str) (ns : Namespace) : RouteResult :=
  if comp = strL "tree" then .forward .tree ('/' :: '_' :: rest2) ns
  else if comp = strL "tag" then .forward .tag ('/' :: '_' :: rest2) ns
  else .notFound

/-- Embeds `uri.path().strip_prefix('/')`. -/

def stripSlash : Str → Option Str
  | [] => none
  | c :: p => if c = '/' then some p else none

/-- Embeds the handler body after the leading slash is stripped:
`split_once("/_")` (else not-found), namespace parse (else bad-request),
`split_once('/')` with `unwrap_or((&path, ""))`, then component routing. -/

def routeStripped (p : Str) : RouteResult :=
  match splitOncePair '/' '_' p with
  | none => .notFound
  | some (nsStr, rest) =>
    match Namespace.fromStr nsStr with
    | .error e => .badRequest e
    | .ok ns =>
      match splitOnceChar '/' rest with
      | none => routeComp rest [] ns
      | some (comp, rest2) => routeComp comp rest2 ns

/-- Embeds the routing logic of the fallback handler installed by `app()`. -/

def route (path : Str) : RouteResult :=
  match stripSlash path with
  | none => .invalidUri
  | some p => routeStripped p

/-! ## Store routing tables (`crates/repo/src/lib.rs`, `app()`)

`app()` declares `tags` and `trees`, two `HashMap<Namespace,
Arc<RwLock<store::Memory<String>>>>`, and moves them into the fallback
handler closure.  Store instances are identified below by allocation
numbers: a fresh number stands for a freshly created `store::Memory`. -/

/-- Handler state captured by the `app()` closure: one table per component,
mapping a namespace to the identifier of its store instance. -/

structure RepoApp where
  tags : List (Namespace × Nat)
  trees : List (Namespace × Nat)
deriving DecidableEq, Repr

/-- Embeds `app()`: both captured maps start empty (`Default::default()`). -/

def app : RepoApp := ⟨[], []⟩

/-- Association-list lookup embedding `HashMap` lookup by key equality. -/

def lookupNs (ns : Namespace) : List (Namespace × Nat) → Option Nat
  | [] => none
  | (k, v) :: rest => if k = ns then some v else lookupNs ns rest

/-- Embeds `table.entry(ns).or_default()`: the existing instance if the key
is present, otherwise a freshly allocated one inserted into the table.
`fresh` is the next unused allocation number. -/

def entryOrDefault (ns : Namespace) (table : List (Namespace × Nat)) (fresh : Nat) :
    Nat × List (Namespace × Nat) × Nat :=
  match lookupNs ns table with
  | some sid => (sid, table, fresh)
  | none => (fresh, (ns, fresh) :: table, fresh + 1)

/-- Outcome of one full handler invocation: as `RouteResult`, except that a
forwarded request also records which store instance the sub-service was
handed. -/

inductive Outcome
  | invalidUri
  | notFound
  | badRequest (reason : String)
  | served (comp : Component) (rewritten : Str) (ns : Namespace) (storeId : Nat)
deriving DecidableEq, Repr

/-- One invocation of the fallback handler over handler state `h` with
allocation counter `fresh`: route the path, then obtain the store handle via
`entry(..).or_default()` on the component's table.  Returns the outcome, the
handler state as mutated by this invocation, and the new counter. -/

def handleRequest (h : RepoApp) (fresh : Nat) (path : Str) :
    Outcome × RepoApp × Nat :=
  match route path with
  | .invalidUri => (.invalidUri, h, fresh)
  | .notFound => (.notFound, h, fresh)
  | .badRequest e => (.badRequest e, h, fresh)
  | .forward .tree rwp ns =>
    let r := entryOrDefault ns h.trees fresh
    (.served .tree rwp ns r.1, { h with trees := r.2.1 }, r.2.2)
  | .forward .tag rwp ns =>
    let r := entryOrDefault ns h.tags fresh
    (.served .tag rwp ns r.1, { h with tags := r.2.1 }, r.2.2)

/-- Embeds axum's execution of the `app()` fallback over a request sequence.
The handler is an `FnOnce + Clone` closure (the two maps are moved into the
`async move` block), and axum's `into_service` clones the closure for every
request and drops the clone when the response is produced.  Consequently each
invocation starts from the captured state `h` as it was when `app()` built
the router; the mutated state of an invocation is never seen by later
requests.  Only the allocation counter, which stands for the process heap,
persists across requests. -/

def serveAll (h : RepoApp) (fresh : Nat) : List Str → List Outcome
  | [] => []
  | p :: ps =>
    let r := handleRequest h fresh p
    r.1 :: serveAll h r.2.2 ps

/-! ## Digest engine (`crates/type/src/digest/{algorithms,reader}.rs`)

Bytes are modelled as natural numbers.  An incremental hasher's state is the
byte sequence absorbed so far; its finalization is an arbitrary function of
that sequence, supplied as a parameter `hf` — the concrete SHA-2 compressors
live in the external `sha2` crate, and every property below holds uniformly
in them. -/

/-- The closed enumeration of supported hash algorithms, in the declaration
order, which the derived Rust `Ord` (and hence `BTreeSet`/`BTreeMap`
iteration) follows. -/

inductive Algorithm
  | sha224
  | sha256
  | sha384
  | sha512
deriving DecidableEq, Repr

/-- Position in the fixed total order on algorithms. -/

def Algorithm.idx : Algorithm → Nat
  | .sha224 => 0
  | .sha256 => 1
  | .sha384 => 2
  | .sha512 => 3

/-- A finalization function: the digest an algorithm's hasher yields after
absorbing a byte sequence. -/

abbrev HashFn := Algorithm → List Nat → List Nat

/-- Embeds `ContentDigest`: a `BTreeMap` from algorithm to digest bytes,
represented as an association list sorted by the algorithm order. -/

abbrev ContentDigest := List (Algorithm × List Nat)

/-- Embeds `BTreeMap::insert` on a sorted association list: an existing
entry for the same algorithm is replaced. -/

def cdInsert (a : Algorithm) (v : List Nat) : ContentDigest → ContentDigest
  | [] => [(a, v)]
  | (b, w) :: rest =>
    if a.idx < b.idx then (a, v) :: (b, w) :: rest
    else if a.idx = b.idx then (a, v) :: rest
    else (b, w) :: cdInsert a v rest

/-- Embeds the loop of `Reader::update`: feed the buffer to every live
hasher. -/

def updateHashers (hs : List (Algorithm × List Nat)) (buf : List Nat) :
    List (Algorithm × List Nat) :=
  hs.map fun p => (p.1, p.2 ++ buf)

/-- Embeds `Reader::digests`: finalize a clone of each hasher state and
insert the result into a `ContentDigest` starting from `default()`. -/

def digestsOf (hf : HashFn) (hs : List (Algorithm × List Nat)) : ContentDigest :=
  hs.foldl (fun set p => cdInsert p.1 (hf p.1 p.2) set) []

/-- Embeds the digesting `Reader` over a blocking source.  The wrapped
source is the sequence of results its successive `read` calls produce (a
chunk of bytes or an I/O error); an exhausted sequence reads as end of
stream (`Ok(0)`). -/

structure Reader where
  reader : List (Except String (List Nat))
  digests : List (Algorithm × List Nat)
deriving DecidableEq, Repr

/-- Embeds `Reader::update`. -/

def Reader.update (r : Reader) (buf : List Nat) : Reader :=
  { r with digests := updateHashers r.digests buf }

/-- Embeds `Reader::digests` for the blocking reader. -/

def Reader.digestsNow (hf : HashFn) (r : Reader) : ContentDigest :=
  digestsOf hf r.digests

/-- Embeds `<Reader as io::Read>::read`: perform the inner read; on error
propagate it unchanged (`?`) without touching the hashers; on success feed
exactly the transferred bytes to every hasher and return the same count. -/

def readStep (r : Reader) : Except String (List Nat) × Reader :=
  match r.reader with
  | [] => (.ok [], r.update [])
  | .error e :: rest => (.error e, { r with reader := rest })
  | .ok c :: rest => (.ok c, Reader.update { r with reader := rest } c)

/-- `Poll` mirrors `std::task::Poll`. -/

inductive Poll (α : Type)
  | ready (a : α)
  | pending
deriving DecidableEq, Repr

/-- Embeds the digesting `Reader` over an async source: the wrapped source
is the sequence of outcomes its successive `poll_read` calls produce. -/

structure AReader where
  reader : List (Poll (Except String (List Nat)))
  digests : List (Algorithm × List Nat)
deriving DecidableEq, Repr

/-- Embeds `Reader::update` for the async reader. -/

def AReader.update (r : AReader) (buf : List Nat) : AReader :=
  { r with digests := updateHashers r.digests buf }

/-- Embeds `Reader::digests` for the async reader. -/

def AReader.digestsNow (hf : HashFn) (r : AReader) : ContentDigest :=
  digestsOf hf r.digests

/-- Embeds `<Reader as AsyncRead>::poll_read`: poll the inner source and
`map_ok` the result, so hashers are updated exactly on `Ready(Ok(n))`, with
exactly the transferred bytes; `Pending` and `Ready(Err)` pass through with
no hasher update. -/

def pollRead (r : AReader) : Poll (Except String (List Nat)) × AReader :=
  match r.reader with
  | [] => (.ready (.ok []), r.update [])
  | .pending :: rest => (.pending, { r with reader := rest })
  | .ready (.error e) :: rest => (.ready (.error e), { r with reader := rest })
  | .ready (.ok c) :: rest => (.ready (.ok c), AReader.update { r with reader := rest } c)

/-- Embeds `std::io::copy(&mut r, &mut sink())` specialised to the digesting
reader: call `read` until it returns `Ok(0)` or an error, summing the
transferred byte counts and discarding the bytes.  `hs` is the reader's
hasher-list state, the list argument its remaining source. -/

def copyChunks (hs : List (Algorithm × List Nat)) :
    List (Except String (List Nat)) → Except String (Nat × Reader)
  | [] => .ok (0, Reader.update ⟨[], hs⟩ [])
  | .error e :: _ => .error e
  | .ok [] :: rest => .ok (0, Reader.update ⟨rest, hs⟩ [])
  | .ok (b :: bs) :: rest =>
    match copyChunks (updateHashers hs (b :: bs)) rest with
    | .error e => .error e
    | .ok p => .ok ((b :: bs).length + p.1, p.2)

/-- Embeds `futures::io::copy(&mut r, &mut sink())`: drive `poll_read` until
`Ready(Ok(0))` or `Ready(Err)`, re-polling on `Pending`. -/

def asyncCopyChunks (hs : List (Algorithm × List Nat)) :
    List (Poll (Except String (List Nat))) → Except String (Nat × AReader)
  | [] => .ok (0, AReader.update ⟨[], hs⟩ [])
  | .pending :: rest => asyncCopyChunks hs rest
  | .ready (.error e) :: _ => .error e
  | .ready (.ok []) :: rest => .ok (0, AReader.update ⟨rest, hs⟩ [])
  | .ready (.ok (b :: bs)) :: rest =>
    match asyncCopyChunks (updateHashers hs (b :: bs)) rest with
    | .error e => .error e
    | .ok p => .ok ((b :: bs).length + p.1, p.2)

/-- Embeds `Algorithms`: a `BTreeSet<Algorithm>` is its sorted,
duplicate-free element list. -/

structure Algorithms where
  set : List Algorithm
deriving DecidableEq, Repr

/-- Embeds `Algorithms::default()`: the four-member baseline set. -/

def Algorithms.default : Algorithms :=
  ⟨[.sha224, .sha256, .sha384, .sha512]⟩

/-- Embeds `Algorithms::reader` / `Reader::new`: wrap a source with one
fresh hasher per algorithm, in iteration order. -/

def Algorithms.reader (a : Algorithms) (source : List (Except String (List Nat))) :
    Reader :=
  ⟨source, a.set.map fun x => (x, [])⟩

/-- Embeds `Algorithms::read`: drain an async source through a digesting
reader into a sink, then snapshot the digests. -/

def Algorithms.read (hf : HashFn) (a : Algorithms)
    (source : List (Poll (Except String (List Nat)))) :
    Except String (Nat × ContentDigest) :=
  match asyncCopyChunks (a.set.map fun x => (x, [])) source with
  | .error e => .error e
  | .ok p => .ok (p.1, p.2.digestsNow hf)

/-- Embeds `Algorithms::read_sync`: as `read` over a blocking source. -/

def Algorithms.readSync (hf : HashFn) (a : Algorithms)
    (source : List (Except String (List Nat))) :
    Except String (Nat × ContentDigest) :=
  match copyChunks (a.set.map fun x => (x, [])) source with
  | .error e => .error e
  | .ok p => .ok (p.1, p.2.digestsNow hf)

/-! ## ContentDigest text encoding

The `FromStr`/`Display` implementation of `ContentDigest` is not among the
provided sources (only its callers and test vectors are), so the codec is
modelled from the spec, sections 3 and 4.3: entries `name=:base64(bytes):`
joined by commas, emitted in the algorithm total order, parsed in any order
with duplicate algorithms, unknown names, malformed base64 and
wrong digest lengths rejected. -/

/-- Modelled from the spec: the hyphenated lowercase algorithm names. -/

def Algorithm.name : Algorithm → Str
  | .sha224 => strL "sha-224"
  | .sha256 => strL "sha-256"
  | .sha384 => strL "sha-384"
  | .sha512 => strL "sha-512"

/-- Modelled from the spec: the native digest length, in bytes, of each
algorithm. -/

def digestLen : Algorithm → Nat
  | .sha224 => 28
  | .sha256 => 32
  | .sha384 => 48
  | .sha512 => 64

/-- Modelled from the spec: case-sensitive resolution of an algorithm name
against the closed enumeration. -/

def algOfName (s : Str) : Option Algorithm :=
  if s = strL "sha-224" then some .sha224
  else if s = strL "sha-256" then some .sha256
  else if s = strL "sha-384" then some .sha384
  else if s = strL "sha-512" then some .sha512
  else none

/-- The standard base64 alphabet. -/

def b64Alphabet : Str :=
  strL "ABCDEFGHIJKLMNOPQRSTUVWXYZabcdefghijklmnopqrstuvwxyz0123456789+/"

/-- Character for a six-bit group. -/

def b64Char (n : Nat) : Char := b64Alphabet.getD n 'A'

/-- Position of a character in the base64 alphabet. -/

def b64ValAux (c : Char) : Str → Nat → Option Nat
  | [], _ => none
  | d :: ds, i => if c = d then some i else b64ValAux c ds (i + 1)

/-- Six-bit value of a base64 alphabet character. -/

def b64Val (c : Char) : Option Nat := b64ValAux c b64Alphabet 0

/-- Modelled from the spec: standard padded base64 encoding of a byte
sequence. -/

def b64Encode : List Nat → Str
  | [] => []
  | [b0] =>
    [b64Char (b0 / 4), b64Char (b0 % 4 * 16), '=', '=']
  | [b0, b1] =>
    [b64Char (b0 / 4), b64Char (b0 % 4 * 16 + b1 / 16), b64Char (b1 % 16 * 4), '=']
  | b0 :: b1 :: b2 :: rest =>
    b64Char (b0 / 4) :: b64Char (b0 % 4 * 16 + b1 / 16) ::
      b64Char (b1 % 16 * 4 + b2 / 64) :: b64Char (b2 % 64) :: b64Encode rest

/-- Modelled from the spec: base64 decoding — four characters per quantum,
`=` padding only at the end of the final quantum; any other shape is
malformed. -/

def b64Decode : Str → Option (List Nat)
  | [] => some []
  | c0 :: c1 :: c2 :: c3 :: rest =>
    match b64Val c0, b64Val c1 with
    | some v0, some v1 =>
      if c2 = '=' then
        if c3 = '=' && rest.isEmpty then some [v0 * 4 + v1 / 16] else none
      else
        match b64Val c2 with
        | some v2 =>
          if c3 = '=' then
            if rest.isEmpty then some [v0 * 4 + v1 / 16, v1 % 16 * 16 + v2 / 4]
            else none
          else
            match b64Val c3 with
            | some v3 =>
              (b64Decode rest).map fun bs =>
                (v0 * 4 + v1 / 16) :: (v1 % 16 * 16 + v2 / 4) :: (v2 % 4 * 64 + v3) :: bs
            | none => none
        | none => none
    | _, _ => none
  | _ => none

/-- Modelled from the spec: canonical encoding of one entry,
`name=:base64(bytes):`. -/

def encodeEntry (p : Algorithm × List Nat) : Str :=
  p.1.name ++ '=' :: ':' :: (b64Encode p.2 ++ [':'])

/-- Modelled from the spec: the canonical `ContentDigest` text form — the
entries of the ordered map, comma-joined.  A `ContentDigest` is sorted by
construction, so entries are emitted in the algorithm total order. -/

def encodeCD (d : ContentDigest) : Str :=
  joinSep ',' (d.map encodeEntry)

/-- Modelled from the spec: parse one entry — split at the first `=:`,
require a trailing `:`, resolve the algorithm name, base64-decode the body,
check the decoded length against the algorithm's native digest length. -/

def parseEntry (s : Str) : Option (Algorithm × List Nat) :=
  match splitOncePair '=' ':' s with
  | none => none
  | some (namePart, rest) =>
    if rest.getLast? = some ':' then
      match algOfName namePart, b64Decode rest.dropLast with
      | some a, some bytes =>
        if bytes.length = digestLen a then some (a, bytes) else none
      | _, _ => none
    else none

/-- Whether the map already holds an entry for the algorithm. -/

def cdHasKey (a : Algorithm) : ContentDigest → Bool
  | [] => false
  | (b, _) :: rest => if a = b then true else cdHasKey a rest

/-- Modelled from the spec: fold the parsed entries into an initially empty
ordered map, rejecting a repeated algorithm. -/

def insertEntries : List Str → ContentDigest → Option ContentDigest
  | [], acc => some acc
  | e :: es, acc =>
    match parseEntry e with
    | none => none
    | some p =>
      if cdHasKey p.1 acc then none
      else insertEntries es (cdInsert p.1 p.2 acc)

/-- Modelled from the spec: parse a `ContentDigest` text form — split on
commas, parse each entry, entries accepted in any order. -/

def parseCD (s : Str) : Option ContentDigest :=
  insertEntries (splitOnChar ',' s) []

/-! ## Lemmas and claim theorems -/

theorem splitOnChar_ne_nil (sep : Char) (s : Str) : splitOnChar sep s ≠ [] := by
  cases s with
  | nil => simp [splitOnChar]
  | cons c cs =>
    simp only [splitOnChar]
    by_cases h : c = sep
    · simp [h]
    · simp only [if_neg h]
      cases splitOnChar sep cs <;> simp [consHead]

theorem joinSep_cons_cons (sep : Char) (c : Char) (t : Str) (ts : List Str) :
    joinSep sep ((c :: t) :: ts) = c :: joinSep sep (t :: ts) := by
  cases ts <;> simp [joinSep]

theorem joinSep_splitOnChar (sep : Char) (s : Str) :
    joinSep sep (splitOnChar sep s) = s := by
  induction s with
  | nil => rfl
  | cons c cs ih =>
    simp only [splitOnChar]
    by_cases h : c = sep
    · subst h
      rw [if_pos rfl]
      cases hs : splitOnChar c cs with
      | nil => exact absurd hs (splitOnChar_ne_nil c cs)
      | cons t ts =>
        rw [hs] at ih
        simp [joinSep, ih]
    · rw [if_neg h]
      cases hs : splitOnChar sep cs with
      | nil => exact absurd hs (splitOnChar_ne_nil sep cs)
      | cons t ts =>
        rw [hs] at ih
        simp [consHead, joinSep_cons_cons, ih]

theorem splitOnChar_not_mem (sep : Char) (s : Str) :
    ∀ t ∈ splitOnChar sep s, sep ∉ t := by
  induction s with
  | nil => simp [splitOnChar]
  | cons c cs ih =>
    simp only [splitOnChar]
    by_cases h : c = sep
    · subst h
      rw [if_pos rfl]
      intro t ht
      rcases List.mem_cons.mp ht with h1 | h1
      · subst h1; simp
      · exact ih t h1
    · rw [if_neg h]
      cases hs : splitOnChar sep cs with
      | nil => exact absurd hs (splitOnChar_ne_nil sep cs)
      | cons t ts =>
        rw [hs] at ih
        intro u hu
        rcases List.mem_cons.mp hu with h1 | h1
        · subst h1
          intro hmem
          rcases List.mem_cons.mp hmem with h2 | h2
          · exact h h2.symm
          · exact ih t (List.mem_cons_self t ts) h2
        · exact ih u (List.mem_cons_of_mem t h1)

theorem splitOnChar_of_not_mem (sep : Char) (t : Str) (h : sep ∉ t) :
    splitOnChar sep t = [t] := by
  induction t with
  | nil => rfl
  | cons c cs ih =>
    have hc : c ≠ sep := fun hc => h (hc ▸ List.mem_cons_self c cs)
    have hcs : sep ∉ cs := fun hm => h (List.mem_cons_of_mem c hm)
    simp only [splitOnChar, if_neg hc, ih hcs, consHead]

theorem splitOnChar_append_sep (sep : Char) (t r : Str) (h : sep ∉ t) :
    splitOnChar sep (t ++ sep :: r) = t :: splitOnChar sep r := by
  induction t with
  | nil =>
    simp [splitOnChar]
  | cons c cs ih =>
    have hc : c ≠ sep := fun hc => h (hc ▸ List.mem_cons_self c cs)
    have hcs : sep ∉ cs := fun hm => h (List.mem_cons_of_mem c hm)
    simp only [List.cons_append, splitOnChar, if_neg hc, List.append_eq]
    rw [ih hcs]
    simp [consHead]

theorem splitOnChar_joinSep (sep : Char) (ts : List Str) (hne : ts ≠ [])
    (h : ∀ t ∈ ts, sep ∉ t) : splitOnChar sep (joinSep sep ts) = ts := by
  induction ts with
  | nil => exact absurd rfl hne
  | cons t us ih =>
    cases us with
    | nil =>
      simpa [joinSep] using splitOnChar_of_not_mem sep t (h t (List.mem_cons_self t []))
    | cons u vs =>
      have ht : sep ∉ t := h t (List.mem_cons_self t (u :: vs))
      have hrest : ∀ x ∈ u :: vs, sep ∉ x := fun x hx => h x (List.mem_cons_of_mem t hx)
      simp only [joinSep, splitOnChar_append_sep sep t _ ht]
      rw [ih (by simp) hrest]

theorem validChar_slash : validChar '/' = false := by decide

theorem valid_no_slash (t : Str) (h : valid t = true) : '/' ∉ t := by
  intro hm
  simp only [valid, Bool.and_eq_true, List.all_eq_true] at h
  exact absurd (h.2 '/' hm) (by decide)

/-- Successful parses expose the `/`-split of the input. -/
theorem fromStr_ok_split (s : Str) (n : Namespace)
    (h : Namespace.fromStr s = .ok n) :
    splitOnChar '/' s = n.owner :: n.groups ++ [n.name] := by
  unfold Namespace.fromStr at h
  split at h
  · exact absurd h (by simp)
  next owner rest heq =>
    split at h
    · exact absurd h (by simp)
    next name hl =>
      split at h
      · exact absurd h (by simp)
      · have hn : n = ⟨owner, rest.dropLast, name⟩ := by
          cases h; rfl
        subst hn
        rw [heq]
        simp only [List.cons_append, List.cons.injEq, true_and]
        exact (List.dropLast_append_getLast? name hl).symm

/-- Reduces `Namespace.fromStr` once the `/`-split of the input is known. -/
theorem fromStr_eq_of_split (s : Str) (owner : Str) (rest : List Str)
    (hs : splitOnChar '/' s = owner :: rest) :
    Namespace.fromStr s =
      match rest.getLast? with
      | none => .error nameErr
      | some name =>
        if !valid owner || !valid name || !rest.dropLast.all valid then
          .error invalidErr
        else
          .ok ⟨owner, rest.dropLast, name⟩ := by
  unfold Namespace.fromStr
  rw [hs]

/-- Reduces `Namespace.fromStr` to the missing-name error when the split has
exactly one field. -/
theorem fromStr_eq_nameErr (s owner : Str) (rest : List Str)
    (hs : splitOnChar '/' s = owner :: rest) (hl : rest.getLast? = none) :
    Namespace.fromStr s = .error nameErr := by
  rw [fromStr_eq_of_split s owner rest hs, hl]

/-- Reduces `Namespace.fromStr` to the validity test once owner and name are
known. -/
theorem fromStr_eq_of_getLast (s owner name : Str) (rest : List Str)
    (hs : splitOnChar '/' s = owner :: rest) (hl : rest.getLast? = some name) :
    Namespace.fromStr s =
      if !valid owner || !valid name || !rest.dropLast.all valid then
        Except.error invalidErr
      else
        Except.ok ⟨owner, rest.dropLast, name⟩ := by
  rw [fromStr_eq_of_split s owner rest hs, hl]

theorem valid_eq_true_iff (t : Str) :
    valid t = true ↔ t ≠ [] ∧ ∀ c ∈ t, validChar c = true := by
  simp [valid, List.all_eq_true, List.isEmpty_iff]

/-- C2: every string `owner/g1/.../gk/name` whose tokens are non-empty and
drawn from ASCII alphanumerics and hyphen parses to exactly that triple, and
every string whose `/`-split has fewer than two fields, an empty field, or a
field with a disallowed character fails to parse. -/
theorem namespace_parse_characterization :
    (∀ (owner : Str) (groups : List Str) (name : Str),
      (∀ t ∈ owner :: groups ++ [name], t ≠ [] ∧ ∀ c ∈ t, validChar c = true) →
      Namespace.fromStr (joinSep '/' (owner :: groups ++ [name])) =
        .ok ⟨owner, groups, name⟩) ∧
    (∀ s : Str,
      ((splitOnChar '/' s).length < 2 ∨
        ∃ t ∈ splitOnChar '/' s, t = [] ∨ ∃ c ∈ t, validChar c = false) →
      ∃ e, Namespace.fromStr s = .error e) := by
  constructor
  · intro owner groups name h
    have hv : ∀ t ∈ owner :: groups ++ [name], valid t = true := fun t ht =>
      (valid_eq_true_iff t).mpr (h t ht)
    have hsl : ∀ t ∈ owner :: groups ++ [name], '/' ∉ t := fun t ht =>
      valid_no_slash t (hv t ht)
    have hs := splitOnChar_joinSep '/' (owner :: groups ++ [name]) (by simp) hsl
    rw [fromStr_eq_of_split _ owner (groups ++ [name]) hs]
    have hown : valid owner = true := hv owner (by simp)
    have hname : valid name = true := hv name (by simp)
    have hgr : groups.all valid = true := by
      rw [List.all_eq_true]
      intro t ht
      exact hv t (by simp [ht])
    simp [List.getLast?_concat, List.dropLast_concat, hown, hname, hgr]
  · intro s hbad
    cases hs : splitOnChar '/' s with
    | nil => exact absurd hs (splitOnChar_ne_nil _ s)
    | cons owner rest =>
      cases hl : rest.getLast? with
      | none => exact ⟨nameErr, fromStr_eq_nameErr s owner rest hs hl⟩
      | some name =>
        have hrne : rest ≠ [] := by
          intro h; rw [h] at hl; simp at hl
        have hlen : ¬(splitOnChar '/' s).length < 2 := by
          rw [hs]
          cases rest with
          | nil => exact absurd rfl hrne
          | cons a as => simp
        rcases hbad with hb | ⟨t, ht, hbt⟩
        · exact absurd hb hlen
        · have hvt : valid t = false := by
            rcases hbt with h1 | ⟨c, hc, hcv⟩
            · subst h1; rfl
            · have : t.all validChar = false := by
                rw [List.all_eq_false]
                exact ⟨c, hc, by simp [hcv]⟩
              simp [valid, this]
          have hrn : rest.dropLast ++ [name] = rest :=
            List.dropLast_append_getLast? name hl
          have hcond : (!valid owner || !valid name || !rest.dropLast.all valid) = true := by
            rw [hs] at ht
            rcases List.mem_cons.mp ht with h1 | h1
            · subst h1; simp [hvt]
            · rw [← hrn] at h1
              rcases List.mem_append.mp h1 with h2 | h2
              · have : rest.dropLast.all valid = false := by
                  rw [List.all_eq_false]
                  exact ⟨t, h2, by simp [hvt]⟩
                simp [this]
              · have h3 : t = name := by simpa using h2
                subst h3
                simp [hvt]
          exact ⟨invalidErr, by
            rw [fromStr_eq_of_getLast s owner name rest hs hl, if_pos hcond]⟩

/-- C2 witness: the characterization applied to `alice/g1/myrepo` (success)
and to the single-token string `alice` (failure). -/
theorem namespace_parse_characterization_witness :
    Namespace.fromStr (strL "alice/g1/myrepo") =
      .ok ⟨strL "alice", [strL "g1"], strL "myrepo"⟩ ∧
    ∃ e, Namespace.fromStr (strL "alice") = .error e := by
  constructor
  · have h := namespace_parse_characterization.1
      (strL "alice") [strL "g1"] (strL "myrepo") (by decide)
    have e : joinSep '/' (strL "alice" :: [strL "g1"] ++ [strL "myrepo"]) =
        strL "alice/g1/myrepo" := by decide
    rw [e] at h
    exact h
  · exact namespace_parse_characterization.2 (strL "alice") (by decide)

/-- C9: namespace parsing is injective on valid inputs — distinct strings
that both parse yield structurally distinct `Namespace` values. -/
theorem namespace_parse_injective (s₁ s₂ : Str) (n₁ n₂ : Namespace)
    (h₁ : Namespace.fromStr s₁ = .ok n₁) (h₂ : Namespace.fromStr s₂ = .ok n₂)
    (hne : s₁ ≠ s₂) : n₁ ≠ n₂ := by
  intro he
  apply hne
  have e₁ := fromStr_ok_split s₁ n₁ h₁
  have e₂ := fromStr_ok_split s₂ n₂ h₂
  have hsplit : splitOnChar '/' s₁ = splitOnChar '/' s₂ := by rw [e₁, e₂, he]
  calc s₁ = joinSep '/' (splitOnChar '/' s₁) := (joinSep_splitOnChar _ _).symm
    _ = joinSep '/' (splitOnChar '/' s₂) := by rw [hsplit]
    _ = s₂ := joinSep_splitOnChar _ _

/-- C9 witness: `a/b/c` and `a/b-c` parse to distinct `Namespace` values. -/
theorem namespace_parse_injective_witness :
    (⟨strL "a", [strL "b"], strL "c"⟩ : Namespace) ≠ ⟨strL "a", [], strL "b-c"⟩ :=
  namespace_parse_injective (strL "a/b/c") (strL "a/b-c") _ _
    (by decide) (by decide) (by decide)

/-- C10: the missing-owner error branch of `Namespace::from_str` is
unreachable — splitting always yields at least one field — and every parse
failure is either the missing-name error or the invalid-namespace error. -/
theorem namespace_owner_error_unreachable (s : Str) :
    Namespace.fromStr s ≠ .error ownerErr ∧
    ∀ e, Namespace.fromStr s = .error e → e = nameErr ∨ e = invalidErr := by
  cases hs : splitOnChar '/' s with
  | nil => exact absurd hs (splitOnChar_ne_nil _ s)
  | cons owner rest =>
    cases hl : rest.getLast? with
    | none =>
      rw [fromStr_eq_nameErr s owner rest hs hl]
      refine ⟨by intro h; injection h with h; exact absurd h (by decide), ?_⟩
      intro e he
      injection he with he
      exact Or.inl he.symm
    | some name =>
      rw [fromStr_eq_of_getLast s owner name rest hs hl]
      by_cases hc : (!valid owner || !valid name || !rest.dropLast.all valid) = true
      · rw [if_pos hc]
        refine ⟨by intro h; injection h with h; exact absurd h (by decide), ?_⟩
        intro e he
        injection he with he
        exact Or.inr he.symm
      · rw [if_neg hc]
        exact ⟨by simp, fun e he => by simp at he⟩

/-- C10 witness: the owner-error branch is not taken on the single-token
input `x`, whose failure is the missing-name error. -/
theorem namespace_owner_error_unreachable_witness :
    Namespace.fromStr (strL "x") ≠ .error ownerErr ∧
    (nameErr = nameErr ∨ nameErr = invalidErr) :=
  ⟨(namespace_owner_error_unreachable (strL "x")).1,
   (namespace_owner_error_unreachable (strL "x")).2 nameErr (by decide)⟩

theorem containsPair_tail (a b c : Char) (s : Str)
    (h : containsPair a b (c :: s) = false) : containsPair a b s = false := by
  cases s with
  | nil => rfl
  | cons d cs =>
    simp only [containsPair, Bool.or_eq_false_iff] at h
    exact h.2

theorem splitOncePair_eq_none (a b : Char) (s : Str)
    (h : containsPair a b s = false) : splitOncePair a b s = none := by
  induction s with
  | nil => rfl
  | cons c cs ih =>
    cases cs with
    | nil => rfl
    | cons d ds =>
      simp only [containsPair, Bool.or_eq_false_iff, Bool.and_eq_false_iff] at h
      simp only [splitOncePair]
      have hcond : (decide (c = a) && decide (d = b)) = false := by
        rcases h.1 with h1 | h1 <;> simp [h1]
      rw [if_neg (by simpa using hcond)]
      rw [ih (by simpa [containsPair] using h.2)]
      rfl

/-- C1 (amended): `/alice/myrepo/_tag/v1` is forwarded to the tag service
with rewritten path `/_v1` and namespace (alice, [], myrepo); a path whose
leading-slash-stripped form contains no `/_` marker is rejected not-found;
and `/_tree/x` is also rejected not-found, because after stripping the
leading slash the remaining `_tree/x` contains no `/_` marker. -/
theorem dispatcher_route_behavior :
    route (strL "/alice/myrepo/_tag/v1") =
      .forward .tag (strL "/_v1") ⟨strL "alice", [], strL "myrepo"⟩ ∧
    (∀ p : Str, containsPair '/' '_' ('/' :: p) = false →
      route ('/' :: p) = .notFound) ∧
    route (strL "/_tree/x") = .notFound := by
  refine ⟨by decide, ?_, by decide⟩
  intro p hp
  have hn : splitOncePair '/' '_' p = none :=
    splitOncePair_eq_none '/' '_' p (containsPair_tail '/' '_' '/' p hp)
  show routeStripped p = .notFound
  unfold routeStripped
  rw [hn]

/-- C1 witness: a path with no `/_` marker, such as `/health`, is rejected
not-found by the dispatcher. -/
theorem dispatcher_route_behavior_witness :
    containsPair '/' '_' ('/' :: strL "health") = false ∧
    route ('/' :: strL "health") = .notFound :=
  ⟨by decide, dispatcher_route_behavior.2.1 (strL "health") (by decide)⟩

/-- C1 counterexample: the dispatcher answers `/_tree/x` with the not-found
rejection, not a bad-request from namespace parsing. -/
theorem dispatcher_route_counterexample :
    route (strL "/_tree/x") = .notFound ∧
    (route (strL "/_tree/x")).isBadRequest = false := by decide

/-- C3: two identical first-time requests for the same (namespace, `tag`)
pair are each served by a store instance the dispatcher created afresh for
that request — allocations 0 and 1 — because every handler invocation starts
from the empty captured tables.  The dispatcher therefore creates more than
one store instance for the pair, and a write through the first handle cannot
be visible through the second, distinct instance. -/
theorem dispatcher_store_not_shared :
    serveAll app 0 [strL "/alice/myrepo/_tag/v1", strL "/alice/myrepo/_tag/v1"] =
      [.served .tag (strL "/_v1") ⟨strL "alice", [], strL "myrepo"⟩ 0,
       .served .tag (strL "/_v1") ⟨strL "alice", [], strL "myrepo"⟩ 1] := by decide

theorem updateHashers_nil (hs : List (Algorithm × List Nat)) :
    updateHashers hs [] = hs := by
  simp [updateHashers]

theorem updateHashers_append (hs : List (Algorithm × List Nat)) (b c : List Nat) :
    updateHashers (updateHashers hs b) c = updateHashers hs (b ++ c) := by
  simp [updateHashers, List.append_assoc]

theorem copyChunks_ok (hs : List (Algorithm × List Nat)) (chunks : List (List Nat))
    (h : ∀ c ∈ chunks, c ≠ []) :
    copyChunks hs (chunks.map Except.ok) =
      .ok (chunks.flatten.length, ⟨[], updateHashers hs chunks.flatten⟩) := by
  induction chunks generalizing hs with
  | nil => simp [copyChunks, Reader.update, updateHashers_nil]
  | cons c cs ih =>
    cases hc : c with
    | nil => exact absurd hc (h c (List.mem_cons_self c cs))
    | cons b bs =>
      have hcs : ∀ x ∈ cs, x ≠ [] := fun x hx => h x (List.mem_cons_of_mem c hx)
      simp only [List.map_cons, copyChunks, ih (updateHashers hs (b :: bs)) hcs,
        updateHashers_append]
      simp [List.flatten_cons, List.length_append]
      omega

theorem asyncCopyChunks_ok (hs : List (Algorithm × List Nat)) (chunks : List (List Nat))
    (h : ∀ c ∈ chunks, c ≠ []) :
    asyncCopyChunks hs (chunks.map fun c => Poll.ready (Except.ok c)) =
      .ok (chunks.flatten.length, ⟨[], updateHashers hs chunks.flatten⟩) := by
  induction chunks generalizing hs with
  | nil => simp [asyncCopyChunks, AReader.update, updateHashers_nil]
  | cons c cs ih =>
    cases hc : c with
    | nil => exact absurd hc (h c (List.mem_cons_self c cs))
    | cons b bs =>
      have hcs : ∀ x ∈ cs, x ≠ [] := fun x hx => h x (List.mem_cons_of_mem c hx)
      simp only [List.map_cons, asyncCopyChunks, ih (updateHashers hs (b :: bs)) hcs,
        updateHashers_append]
      simp [List.flatten_cons, List.length_append]
      omega

/-- C4: for a fixed algorithm set and a finite byte sequence presented as an
error-free stream of non-empty chunks, the async `read` and the blocking
`read_sync` return the same result, and that result pairs the sequence's
length with a digest set — for every finalization function. -/
theorem read_readSync_agree (hf : HashFn) (a : Algorithms) (chunks : List (List Nat))
    (h : ∀ c ∈ chunks, c ≠ []) :
    Algorithms.read hf a (chunks.map fun c => Poll.ready (Except.ok c)) =
      Algorithms.readSync hf a (chunks.map Except.ok) ∧
    ∃ d, Algorithms.readSync hf a (chunks.map Except.ok) =
      .ok (chunks.flatten.length, d) := by
  unfold Algorithms.read Algorithms.readSync
  rw [copyChunks_ok _ chunks h, asyncCopyChunks_ok _ chunks h]
  exact ⟨rfl, _, rfl⟩

/-- C4 witness: both drains of the chunked sequence `[1,2],[3]` agree and
count all three bytes. -/
theorem read_readSync_agree_witness :
    (Algorithms.read (fun _ bs => bs) Algorithms.default
        ([[1, 2], [3]].map fun c => Poll.ready (Except.ok c)) =
      Algorithms.readSync (fun _ bs => bs) Algorithms.default
        ([[1, 2], [3]].map Except.ok)) ∧
    ∃ d, Algorithms.readSync (fun _ bs => bs) Algorithms.default
        ([[1, 2], [3]].map Except.ok) = .ok (3, d) := by
  have h := read_readSync_agree (fun _ bs => bs) Algorithms.default
    [[1, 2], [3]] (by decide)
  exact ⟨h.1, by simpa using h.2⟩

theorem foldl_update_digests (chunks : List (List Nat)) (r : Reader) :
    (chunks.foldl Reader.update r).digests = updateHashers r.digests chunks.flatten := by
  induction chunks generalizing r with
  | nil => simp [updateHashers_nil]
  | cons c cs ih =>
    simp only [List.foldl_cons, ih, List.flatten_cons]
    simp [Reader.update, updateHashers_append]

/-- C5: the digest snapshot after feeding a byte sequence through a reader
depends only on the concatenation of the fed chunks, not on the chunking or
on the wrapped sources. -/
theorem digest_chunking_invariant (hf : HashFn) (a : Algorithms)
    (s₁ s₂ : List (Except String (List Nat))) (chunks₁ chunks₂ : List (List Nat))
    (h : chunks₁.flatten = chunks₂.flatten) :
    (chunks₁.foldl Reader.update (a.reader s₁)).digestsNow hf =
      (chunks₂.foldl Reader.update (a.reader s₂)).digestsNow hf := by
  unfold Reader.digestsNow
  rw [foldl_update_digests, foldl_update_digests, h]
  rfl

/-- C5 witness: `[1],[2,3]` fed in two chunks and `[1,2,3]` fed in one yield
the same snapshot. -/
theorem digest_chunking_invariant_witness :
    (([[1], [2, 3]] : List (List Nat)).foldl Reader.update
        (Algorithms.default.reader [])).digestsNow (fun _ bs => bs) =
      (([[1, 2, 3]] : List (List Nat)).foldl Reader.update
        (Algorithms.default.reader [])).digestsNow (fun _ bs => bs) :=
  digest_chunking_invariant (fun _ bs => bs) Algorithms.default [] []
    [[1], [2, 3]] [[1, 2, 3]] (by decide)

/-- C7: a failing inner read propagates exactly the inner error with no
hasher state updated; a successful inner read of a chunk returns that chunk
and extends every hasher with exactly its bytes — for the blocking `read`
and for `poll_read` (where `Pending` also leaves hashers untouched). -/
theorem reader_error_passthrough :
    (∀ (hs : List (Algorithm × List Nat)) (e : String)
        (rest : List (Except String (List Nat))),
      readStep ⟨.error e :: rest, hs⟩ = (.error e, ⟨rest, hs⟩)) ∧
    (∀ (hs : List (Algorithm × List Nat)) (c : List Nat)
        (rest : List (Except String (List Nat))),
      readStep ⟨.ok c :: rest, hs⟩ =
        (.ok c, ⟨rest, hs.map fun p => (p.1, p.2 ++ c)⟩)) ∧
    (∀ (hs : List (Algorithm × List Nat)) (e : String)
        (rest : List (Poll (Except String (List Nat)))),
      pollRead ⟨.ready (.error e) :: rest, hs⟩ = (.ready (.error e), ⟨rest, hs⟩)) ∧
    (∀ (hs : List (Algorithm × List Nat)) (c : List Nat)
        (rest : List (Poll (Except String (List Nat)))),
      pollRead ⟨.ready (.ok c) :: rest, hs⟩ =
        (.ready (.ok c), ⟨rest, hs.map fun p => (p.1, p.2 ++ c)⟩)) ∧
    (∀ (hs : List (Algorithm × List Nat))
        (rest : List (Poll (Except String (List Nat)))),
      pollRead ⟨.pending :: rest, hs⟩ = (.pending, ⟨rest, hs⟩)) :=
  ⟨fun _ _ _ => rfl, fun _ _ _ => rfl, fun _ _ _ => rfl, fun _ _ _ => rfl,
   fun _ _ => rfl⟩

theorem cdInsert_append_of_gt (a : Algorithm) (v : List Nat)
    (acc : ContentDigest) (h : ∀ q ∈ acc, q.1.idx < a.idx) :
    cdInsert a v acc = acc ++ [(a, v)] := by
  induction acc with
  | nil => rfl
  | cons q qs ih =>
    have hq : q.1.idx < a.idx := h q (List.mem_cons_self q qs)
    simp only [cdInsert]
    rw [if_neg (by omega), if_neg (by omega)]
    rw [ih fun x hx => h x (List.mem_cons_of_mem q hx)]
    cases q
    simp

theorem foldl_cdInsert_sorted (hf : HashFn) (l acc : List (Algorithm × List Nat))
    (hacc : ∀ p ∈ acc, ∀ q ∈ l, p.1.idx < q.1.idx)
    (hl : l.Pairwise fun p q => p.1.idx < q.1.idx) :
    l.foldl (fun set p => cdInsert p.1 (hf p.1 p.2) set) acc =
      acc ++ l.map fun p => (p.1, hf p.1 p.2) := by
  induction l generalizing acc with
  | nil => simp
  | cons p ps ih =>
    have hp : ∀ q ∈ acc, q.1.idx < p.1.idx :=
      fun q hq => hacc q hq p (List.mem_cons_self p ps)
    simp only [List.foldl_cons]
    rw [cdInsert_append_of_gt p.1 (hf p.1 p.2) acc hp]
    rw [ih (acc ++ [(p.1, hf p.1 p.2)])]
    · simp
    · intro x hx q hq
      rcases List.mem_append.mp hx with h1 | h1
      · exact hacc x h1 q (List.mem_cons_of_mem p hq)
      · have : x = (p.1, hf p.1 p.2) := by simpa using h1
        subst this
        exact (List.pairwise_cons.mp hl).1 q hq
    · exact (List.pairwise_cons.mp hl).2

theorem digestsOf_sorted (hf : HashFn) (l : List (Algorithm × List Nat))
    (h : l.Pairwise fun p q => p.1.idx < q.1.idx) :
    digestsOf hf l = l.map fun p => (p.1, hf p.1 p.2) := by
  unfold digestsOf
  rw [foldl_cdInsert_sorted hf l [] (by simp) h]
  simp

/-- C8: `digests()` is a pure snapshot of the reader: for a duplicate-free
ordered algorithm set it returns exactly one entry per active algorithm,
finalizing exactly the bytes transferred so far; a later snapshot after more
chunks reflects exactly all bytes then transferred (mid-stream snapshots are
legal and independent); and the reader's accumulation is the same whether or
not a snapshot was taken in between, snapshots returning no new reader
state. -/
theorem digests_snapshot (hf : HashFn) (a : Algorithms)
    (s : List (Except String (List Nat))) (chunks more : List (List Nat))
    (hsorted : a.set.Pairwise fun x y => x.idx < y.idx) :
    ((chunks.foldl Reader.update (a.reader s)).digestsNow hf =
      a.set.map fun alg => (alg, hf alg chunks.flatten)) ∧
    (((chunks ++ more).foldl Reader.update (a.reader s)).digestsNow hf =
      a.set.map fun alg => (alg, hf alg (chunks ++ more).flatten)) ∧
    ((chunks ++ more).foldl Reader.update (a.reader s) =
      more.foldl Reader.update (chunks.foldl Reader.update (a.reader s))) := by
  have key : ∀ cs : List (List Nat),
      (cs.foldl Reader.update (a.reader s)).digestsNow hf =
        a.set.map fun alg => (alg, hf alg cs.flatten) := by
    intro cs
    unfold Reader.digestsNow
    rw [foldl_update_digests]
    have hup : updateHashers ((a.reader s).digests) cs.flatten =
        a.set.map fun alg => (alg, cs.flatten) := by
      simp [Algorithms.reader, updateHashers, List.map_map, Function.comp]
    rw [hup]
    rw [digestsOf_sorted hf _ (by
      rw [List.pairwise_map]
      exact hsorted)]
    simp [List.map_map, Function.comp]
  exact ⟨key chunks, key (chunks ++ more), List.foldl_append _ _ _ _⟩

/-- C8 witness: the snapshot of the default set after chunks `[1]` then
`[2,3]` has one entry per algorithm finalizing `[1,2,3]`. -/
theorem digests_snapshot_witness :
    (([[1], [2, 3]] : List (List Nat)).foldl Reader.update
        (Algorithms.default.reader [])).digestsNow (fun _ bs => bs) =
      Algorithms.default.set.map fun alg => (alg, [1, 2, 3]) := by
  have h := (digests_snapshot (fun _ bs => bs) Algorithms.default []
    [[1], [2, 3]] [] (by decide)).1
  simpa using h

theorem b64Val_b64Char : ∀ n < 64, b64Val (b64Char n) = some n := by decide

theorem b64Char_ne_pad : ∀ n < 64, b64Char n ≠ '=' := by decide

theorem b64Char_mem (n : Nat) : b64Char n ∈ b64Alphabet := by
  unfold b64Char List.getD
  cases hg : b64Alphabet.get? n with
  | none => simp [Option.getD]; decide
  | some c =>
    have := List.get?_mem hg
    simpa [Option.getD] using this

theorem b64Decode_b64Encode :
    ∀ bs : List Nat, (∀ b ∈ bs, b < 256) → b64Decode (b64Encode bs) = some bs
  | [], _ => rfl
  | [b0], h => by
    have hb0 : b0 < 256 := h b0 (by simp)
    simp only [b64Encode, b64Decode]
    rw [b64Val_b64Char (b0 / 4) (by omega), b64Val_b64Char (b0 % 4 * 16) (by omega)]
    simp
    omega
  | [b0, b1], h => by
    have hb0 : b0 < 256 := h b0 (by simp)
    have hb1 : b1 < 256 := h b1 (by simp)
    have hne : b64Char (b1 % 16 * 4) ≠ '=' := b64Char_ne_pad _ (by omega)
    simp only [b64Encode, b64Decode]
    rw [b64Val_b64Char (b0 / 4) (by omega),
      b64Val_b64Char (b0 % 4 * 16 + b1 / 16) (by omega),
      b64Val_b64Char (b1 % 16 * 4) (by omega)]
    simp [hne]
    omega
  | b0 :: b1 :: b2 :: b3 :: rest, h => by
    have hb0 : b0 < 256 := h b0 (by simp)
    have hb1 : b1 < 256 := h b1 (by simp)
    have hb2 : b2 < 256 := h b2 (by simp)
    have ih := b64Decode_b64Encode (b3 :: rest) fun b hb => h b (by simp at hb ⊢; tauto)
    have hne2 : b64Char (b1 % 16 * 4 + b2 / 64) ≠ '=' := b64Char_ne_pad _ (by omega)
    have hne3 : b64Char (b2 % 64) ≠ '=' := b64Char_ne_pad _ (by omega)
    simp only [b64Encode, b64Decode]
    rw [b64Val_b64Char (b0 / 4) (by omega),
      b64Val_b64Char (b0 % 4 * 16 + b1 / 16) (by omega),
      b64Val_b64Char (b1 % 16 * 4 + b2 / 64) (by omega),
      b64Val_b64Char (b2 % 64) (by omega)]
    simp [hne2, hne3, ih]
    omega
  | [b0, b1, b2], h => by
    have hb0 : b0 < 256 := h b0 (by simp)
    have hb1 : b1 < 256 := h b1 (by simp)
    have hb2 : b2 < 256 := h b2 (by simp)
    have hne2 : b64Char (b1 % 16 * 4 + b2 / 64) ≠ '=' := b64Char_ne_pad _ (by omega)
    have hne3 : b64Char (b2 % 64) ≠ '=' := b64Char_ne_pad _ (by omega)
    simp only [b64Encode, b64Decode]
    rw [b64Val_b64Char (b0 / 4) (by omega),
      b64Val_b64Char (b0 % 4 * 16 + b1 / 16) (by omega),
      b64Val_b64Char (b1 % 16 * 4 + b2 / 64) (by omega),
      b64Val_b64Char (b2 % 64) (by omega)]
    simp [b64Decode, hne2, hne3]
    omega

theorem splitOncePair_junction (x y : Char) (t r : Str) (h : x ∉ t) :
    splitOncePair x y (t ++ x :: y :: r) = some (t, r) := by
  induction t with
  | nil => simp [splitOncePair]
  | cons c cs ih =>
    have hc : c ≠ x := fun hc => h (hc ▸ List.mem_cons_self c cs)
    have hcs : x ∉ cs := fun hm => h (List.mem_cons_of_mem c hm)
    have ihe := ih hcs
    cases cs with
    | nil =>
      simp [splitOncePair, hc]
    | cons e cs' =>
      simp only [List.cons_append] at ihe ⊢
      simp only [splitOncePair]
      rw [if_neg (by simp [hc])]
      rw [ihe]
      rfl

theorem name_no_eq (a : Algorithm) : '=' ∉ Algorithm.name a := by
  cases a <;> decide

theorem name_no_comma (a : Algorithm) : ',' ∉ Algorithm.name a := by
  cases a <;> decide

theorem b64Encode_mem :
    ∀ bs : List Nat, ∀ c ∈ b64Encode bs, c ∈ b64Alphabet ∨ c = '='
  | [] => by simp [b64Encode]
  | [b0] => by
    intro c hc
    simp only [b64Encode, List.mem_cons, List.not_mem_nil, or_false] at hc
    rcases hc with h | h | h | h
    · exact Or.inl (h ▸ b64Char_mem _)
    · exact Or.inl (h ▸ b64Char_mem _)
    · exact Or.inr h
    · exact Or.inr h
  | [b0, b1] => by
    intro c hc
    simp only [b64Encode, List.mem_cons, List.not_mem_nil, or_false] at hc
    rcases hc with h | h | h | h
    · exact Or.inl (h ▸ b64Char_mem _)
    · exact Or.inl (h ▸ b64Char_mem _)
    · exact Or.inl (h ▸ b64Char_mem _)
    · exact Or.inr h
  | b0 :: b1 :: b2 :: rest => by
    intro c hc
    simp only [b64Encode, List.mem_cons] at hc
    rcases hc with h | h | h | h | h
    · exact Or.inl (h ▸ b64Char_mem _)
    · exact Or.inl (h ▸ b64Char_mem _)
    · exact Or.inl (h ▸ b64Char_mem _)
    · exact Or.inl (h ▸ b64Char_mem _)
    · exact b64Encode_mem rest c h

theorem encodeEntry_no_comma (p : Algorithm × List Nat) :
    ∀ c ∈ encodeEntry p, c ≠ ',' := by
  intro c hc he
  subst he
  unfold encodeEntry at hc
  rcases List.mem_append.mp hc with h | h
  · exact name_no_comma p.1 h
  · rcases List.mem_cons.mp h with h1 | h1
    · exact absurd h1 (by decide)
    · rcases List.mem_cons.mp h1 with h2 | h2
      · exact absurd h2 (by decide)
      · rcases List.mem_append.mp h2 with h3 | h3
        · rcases b64Encode_mem p.2 ',' h3 with h4 | h4
          · exact absurd h4 (by decide)
          · exact absurd h4 (by decide)
        · simp at h3

theorem algOfName_name (a : Algorithm) : algOfName (Algorithm.name a) = some a := by
  cases a <;> decide

theorem parseEntry_encodeEntry (a : Algorithm) (v : List Nat)
    (hlen : v.length = digestLen a) (hb : ∀ b ∈ v, b < 256) :
    parseEntry (encodeEntry (a, v)) = some (a, v) := by
  unfold parseEntry encodeEntry
  rw [splitOncePair_junction '=' ':' (Algorithm.name a) (b64Encode v ++ [':'])
    (name_no_eq a)]
  simp [List.getLast?_concat, List.dropLast_concat, algOfName_name,
    b64Decode_b64Encode v hb, hlen]

theorem cdHasKey_false (a : Algorithm) (l : ContentDigest)
    (h : ∀ q ∈ l, q.1.idx < a.idx) : cdHasKey a l = false := by
  induction l with
  | nil => rfl
  | cons b rest ih =>
    obtain ⟨bk, bw⟩ := b
    have hne : a ≠ bk := by
      intro he
      have := h (bk, bw) (by simp)
      subst he
      simp at this
    simp only [cdHasKey, if_neg hne]
    exact ih fun q hq => h q (List.mem_cons_of_mem _ hq)

theorem insertEntries_encode (d : ContentDigest) :
    ∀ acc : ContentDigest,
    (∀ p ∈ acc, ∀ q ∈ d, p.1.idx < q.1.idx) →
    (d.Pairwise fun p q => p.1.idx < q.1.idx) →
    (∀ p ∈ d, p.2.length = digestLen p.1) →
    (∀ p ∈ d, ∀ b ∈ p.2, b < 256) →
    insertEntries (d.map encodeEntry) acc = some (acc ++ d) := by
  induction d with
  | nil => intro acc _ _ _ _; simp [insertEntries]
  | cons p ps ih =>
    intro acc hacc hd hlen hbytes
    obtain ⟨a, v⟩ := p
    simp only [List.map_cons, insertEntries,
      parseEntry_encodeEntry a v (hlen ⟨a, v⟩ (by simp)) (hbytes ⟨a, v⟩ (by simp))]
    have hk : cdHasKey a acc = false :=
      cdHasKey_false a acc fun q hq => hacc q hq ⟨a, v⟩ (by simp)
    rw [hk]
    simp only [Bool.false_eq_true, if_false]
    rw [cdInsert_append_of_gt a v acc fun q hq => hacc q hq ⟨a, v⟩ (by simp)]
    rw [ih (acc ++ [(a, v)]) ?_ (List.pairwise_cons.mp hd).2
      (fun q hq => hlen q (List.mem_cons_of_mem _ hq))
      (fun q hq => hbytes q (List.mem_cons_of_mem _ hq))]
    · simp
    · intro x hx q hq
      rcases List.mem_append.mp hx with h1 | h1
      · exact hacc x h1 q (List.mem_cons_of_mem _ hq)
      · have : x = (a, v) := by simpa using h1
        subst this
        exact (List.pairwise_cons.mp hd).1 q hq

theorem cdInsert_mem (a : Algorithm) (v : List Nat) (l : ContentDigest) :
    ∀ q ∈ cdInsert a v l, q ∈ l ∨ q = (a, v) := by
  induction l with
  | nil => simp [cdInsert]
  | cons b rest ih =>
    obtain ⟨bk, bw⟩ := b
    intro q hq
    simp only [cdInsert] at hq
    by_cases h1 : a.idx < bk.idx
    · rw [if_pos h1] at hq
      rcases List.mem_cons.mp hq with h | h
      · exact Or.inr h
      · exact Or.inl h
    · rw [if_neg h1] at hq
      by_cases h2 : a.idx = bk.idx
      · rw [if_pos h2] at hq
        rcases List.mem_cons.mp hq with h | h
        · exact Or.inr h
        · exact Or.inl (List.mem_cons_of_mem _ h)
      · rw [if_neg h2] at hq
        rcases List.mem_cons.mp hq with h | h
        · exact Or.inl (h ▸ List.mem_cons_self _ _)
        · rcases ih q h with h3 | h3
          · exact Or.inl (List.mem_cons_of_mem _ h3)
          · exact Or.inr h3

theorem cdInsert_sorted (a : Algorithm) (v : List Nat) (l : ContentDigest)
    (h : l.Pairwise fun p q => p.1.idx < q.1.idx) :
    (cdInsert a v l).Pairwise fun p q => p.1.idx < q.1.idx := by
  induction l with
  | nil => simp [cdInsert]
  | cons b rest ih =>
    obtain ⟨bk, bw⟩ := b
    obtain ⟨hb, hrest⟩ := List.pairwise_cons.mp h
    simp only [cdInsert]
    by_cases h1 : a.idx < bk.idx
    · rw [if_pos h1]
      refine List.Pairwise.cons ?_ h
      intro q hq
      rcases List.mem_cons.mp hq with h2 | h2
      · subst h2; exact h1
      · exact lt_trans h1 (hb q h2)
    · rw [if_neg h1]
      by_cases h2 : a.idx = bk.idx
      · rw [if_pos h2]
        exact List.Pairwise.cons (fun q hq => h2 ▸ hb q hq) hrest
      · rw [if_neg h2]
        refine List.Pairwise.cons ?_ (ih hrest)
        intro q hq
        rcases cdInsert_mem a v rest q hq with h3 | h3
        · exact hb q h3
        · subst h3
          simp only
          omega

theorem insertEntries_sorted (es : List Str) :
    ∀ acc d : ContentDigest,
    insertEntries es acc = some d →
    (acc.Pairwise fun p q => p.1.idx < q.1.idx) →
    d.Pairwise fun p q => p.1.idx < q.1.idx := by
  induction es with
  | nil =>
    intro acc d h hacc
    simp only [insertEntries, Option.some.injEq] at h
    exact h ▸ hacc
  | cons e es ih =>
    intro acc d h hacc
    simp only [insertEntries] at h
    split at h
    · exact absurd h (by simp)
    next p hp =>
      split at h
      · exact absurd h (by simp)
      · exact ih _ d h (cdInsert_sorted p.1 p.2 acc hacc)

/-- C6 (amended): for every non-empty digest set of the shape the engine
produces (entries sorted by the algorithm order, with the algorithm's native
digest length and byte-valued contents), parsing the canonical encoding
returns exactly that digest set; consequently re-encoding the parse of a
canonical text returns the identical text; and every successful parse is
sorted in the fixed algorithm order, so the canonical encoder emits entries
in that order regardless of the order in which the parsed input listed
them. -/
theorem content_digest_roundtrip (d : ContentDigest) (hne : d ≠ [])
    (hsorted : d.Pairwise fun p q => p.1.idx < q.1.idx)
    (hlen : ∀ p ∈ d, p.2.length = digestLen p.1)
    (hbytes : ∀ p ∈ d, ∀ b ∈ p.2, b < 256) :
    parseCD (encodeCD d) = some d ∧
    (∀ d' : ContentDigest, parseCD (encodeCD d) = some d' →
      encodeCD d' = encodeCD d) ∧
    (∀ (t : Str) (d' : ContentDigest), parseCD t = some d' →
      d'.Pairwise fun p q => p.1.idx < q.1.idx) := by
  have hsplit : splitOnChar ',' (encodeCD d) = d.map encodeEntry := by
    unfold encodeCD
    refine splitOnChar_joinSep ',' (d.map encodeEntry) (by simpa using hne) ?_
    intro t ht hmem
    rcases List.mem_map.mp ht with ⟨p, _, hp⟩
    exact encodeEntry_no_comma p ',' (hp ▸ hmem) rfl
  have h1 : parseCD (encodeCD d) = some d := by
    unfold parseCD
    rw [hsplit]
    have := insertEntries_encode d [] (by simp) hsorted hlen hbytes
    simpa using this
  refine ⟨h1, ?_, ?_⟩
  · intro d' hd'
    rw [h1] at hd'
    injection hd' with hd'
    rw [hd']
  · intro t d' ht
    exact insertEntries_sorted _ [] d' ht (by simp)

/-- C6 witness: a single-entry digest set with 28 zero bytes for SHA-224
round-trips through the canonical encoding. -/
theorem content_digest_roundtrip_witness :
    parseCD (encodeCD [(Algorithm.sha224, List.replicate 28 0)]) =
      some [(Algorithm.sha224, List.replicate 28 0)] :=
  (content_digest_roundtrip [(Algorithm.sha224, List.replicate 28 0)]
    (by decide) (by decide) (by decide) (by decide)).1

/-- C6 counterexample: the engine can produce the empty digest set
(`ContentDigest::default()`, or the snapshot of a reader over an empty
algorithm set); its canonical encoding is the empty string, which does not
parse back to it. -/
theorem content_digest_roundtrip_counterexample :
    digestsOf (fun _ bs => bs) [] = [] ∧
    parseCD (encodeCD (digestsOf (fun _ bs => bs) [])) = none := by decide

end Drawbridge
